import Mathlib

/-!
Verification of the `rust-binary-search-tree` repository (`src/lib.rs`).

The repository implements a generic binary search tree
`BinarySearchTree<T: Debug + PartialOrd>` with two variants `Node` and
`Empty`, an in-place `insert` driven by `partial_cmp` (`Some(Less)` goes
left, `Some(Greater)` goes right, anything else is a silent no-op),
`len`/`is_empty` queries, three recursive depth-first traversals
(pre-order, in-order, post-order) that return `Option<Vec<&T>>`
(`None` exactly on `Empty`), and a queue-based `breadth_first_traversal`
that always returns `Some`.

The shallow embedding below mirrors those functions.  Rust's
`partial_cmp` is modelled as an explicit comparison function
`cmp : α → α → Option Ordering`; in-place mutation becomes a function
returning the new tree; `Vec` accumulation by `push` becomes list
accumulation by appending at the end.
-/

set_option maxHeartbeats 1000000

/-- The tree type from `src/lib.rs`: a `Node` holds a value and owns two
subtrees, `Empty` is the leaf sentinel. -/
inductive BinarySearchTree (α : Type) where
  | Node (value : α) (left : BinarySearchTree α) (right : BinarySearchTree α)
  | Empty
  deriving DecidableEq

namespace BinarySearchTree

variable {α : Type}

/-- `BinarySearchTree::new`: returns `Empty`. -/
def new : BinarySearchTree α := Empty

/-- `BinarySearchTree::insert`: on a `Node`, compare the new value with the
stored value via `partial_cmp` (modelled by `cmp`); `Some(Less)` recurses
left, `Some(Greater)` recurses right, anything else (equal or incomparable)
does nothing.  On `Empty`, replace it with a `Node` holding the value and
two `Empty` children. -/
def insert (cmp : α → α → Option Ordering) :
    BinarySearchTree α → α → BinarySearchTree α
  | Node value left right, new_value =>
    match cmp new_value value with
    | some Ordering.lt => Node value (insert cmp left new_value) right
    | some Ordering.gt => Node value left (insert cmp right new_value)
    | _ => Node value left right
  | Empty, new_value => Node new_value Empty Empty

/-- `BinarySearchTree::recursive_len`: if the root is a `Node`, add one to
the accumulator and recurse into both children; on `Empty` leave the
accumulator unchanged.  The Rust version threads `&mut usize`; here the
accumulator is passed and returned. -/
def recursive_len : Nat → BinarySearchTree α → Nat
  | n, Node _ left right => recursive_len (recursive_len (n + 1) left) right
  | n, Empty => n

/-- `BinarySearchTree::len`: zero on `Empty`, otherwise run `recursive_len`
from a zero accumulator over the root. -/
def len (t : BinarySearchTree α) : Nat :=
  match t with
  | Node value left right => recursive_len 0 (Node value left right)
  | Empty => 0

/-- `BinarySearchTree::is_empty`: `self.len() == 0`. -/
def is_empty (t : BinarySearchTree α) : Bool := len t == 0

/-- `BinarySearchTree::recursive_pre_order_traversal`: push the value, then
recurse left, then right; no-op on `Empty`.  The `Vec<&T>` accumulator
becomes a list extended at its end. -/
def recursive_pre_order_traversal : List α → BinarySearchTree α → List α
  | v, Node value left right =>
    recursive_pre_order_traversal
      (recursive_pre_order_traversal (v ++ [value]) left) right
  | v, Empty => v

/-- `BinarySearchTree::pre_order_traversal`: `None` on `Empty`, otherwise
`Some` of the accumulated vector. -/
def pre_order_traversal (t : BinarySearchTree α) : Option (List α) :=
  match t with
  | Node value left right =>
    some (recursive_pre_order_traversal [] (Node value left right))
  | Empty => none

/-- `BinarySearchTree::recursive_in_order_traversal`: recurse left, push the
value, recurse right; no-op on `Empty`. -/
def recursive_in_order_traversal : List α → BinarySearchTree α → List α
  | v, Node value left right =>
    recursive_in_order_traversal
      (recursive_in_order_traversal v left ++ [value]) right
  | v, Empty => v

/-- `BinarySearchTree::in_order_traversal`: `None` on `Empty`, otherwise
`Some` of the accumulated vector. -/
def in_order_traversal (t : BinarySearchTree α) : Option (List α) :=
  match t with
  | Node value left right =>
    some (recursive_in_order_traversal [] (Node value left right))
  | Empty => none

/-- `BinarySearchTree::recursive_post_order_traversal`: recurse left, recurse
right, then push the value; no-op on `Empty`. -/
def recursive_post_order_traversal : List α → BinarySearchTree α → List α
  | v, Node value left right =>
    recursive_post_order_traversal
      (recursive_post_order_traversal v left) right ++ [value]
  | v, Empty => v

/-- `BinarySearchTree::post_order_traversal`: `None` on `Empty`, otherwise
`Some` of the accumulated vector. -/
def post_order_traversal (t : BinarySearchTree α) : Option (List α) :=
  match t with
  | Node value left right =>
    some (recursive_post_order_traversal [] (Node value left right))
  | Empty => none

/-- Number of `Node` constructors in a tree (the measure used for the
breadth-first loop's termination). -/
def size : BinarySearchTree α → Nat
  | Node _ left right => 1 + size left + size right
  | Empty => 0

/-- The `if let BinarySearchTree::Node { .. }` test used by
`breadth_first_traversal` before enqueueing a child. -/
def isNode : BinarySearchTree α → Bool
  | Node _ _ _ => true
  | Empty => false

/-- The `while !queue.is_empty()` loop of
`BinarySearchTree::breadth_first_traversal`: pop the front of the queue; if
it is a `Node`, push its value onto `v` and enqueue each child that is a
`Node` (left first); `Empty` entries are skipped. -/
def bfs_go : List α → List (BinarySearchTree α) → List α
  | v, [] => v
  | v, Node value left right :: rest =>
    bfs_go (v ++ [value])
      ((rest ++ (if isNode left then [left] else [])) ++
        (if isNode right then [right] else []))
  | v, Empty :: rest => bfs_go v rest
termination_by v queue => 2 * (queue.map size).sum + queue.length
decreasing_by
  · simp only [List.map_append, List.sum_append, List.length_append,
      List.map_cons, List.sum_cons, List.length_cons, size]
    split <;> split <;> simp [size] <;> omega
  · simp [size]

/-- `BinarySearchTree::breadth_first_traversal`: run the queue loop seeded
with the whole tree and wrap the result in `Some` unconditionally. -/
def breadth_first_traversal (t : BinarySearchTree α) : Option (List α) :=
  some (bfs_go [] [t])

end BinarySearchTree

open BinarySearchTree

/-- The comparison supplied by a total `Ord` instance, wrapped the way
Rust's `PartialOrd::partial_cmp` presents it (always `Some`).  This is the
comparison a type such as `i32` provides. -/
def totalCmp {α : Type} [Ord α] (a b : α) : Option Ordering := some (compare a b)

/-- A tree obtained by starting from `new()` and performing the given
sequence of `insert` calls in order. -/
def build {α : Type} (cmp : α → α → Option Ordering) (xs : List α) :
    BinarySearchTree α :=
  xs.foldl (insert cmp) new

namespace BinarySearchTree

variable {α : Type}

/-! ## Direct (non-accumulator) descriptions of the traversals -/

/-- Pre-order contents of a tree as a plain list (value, left, right). -/
def preList : BinarySearchTree α → List α
  | Node value left right => value :: (preList left ++ preList right)
  | Empty => []

/-- In-order contents of a tree as a plain list (left, value, right). -/
def inList : BinarySearchTree α → List α
  | Node value left right => inList left ++ value :: inList right
  | Empty => []

/-- Post-order contents of a tree as a plain list (left, right, value). -/
def postList : BinarySearchTree α → List α
  | Node value left right => postList left ++ postList right ++ [value]
  | Empty => []

theorem recursive_pre_order_traversal_eq (v : List α) (t : BinarySearchTree α) :
    recursive_pre_order_traversal v t = v ++ preList t := by
  induction t generalizing v with
  | Node value left right ihl ihr =>
    simp [recursive_pre_order_traversal, preList, ihl, ihr]
  | Empty => simp [recursive_pre_order_traversal, preList]

theorem recursive_in_order_traversal_eq (v : List α) (t : BinarySearchTree α) :
    recursive_in_order_traversal v t = v ++ inList t := by
  induction t generalizing v with
  | Node value left right ihl ihr =>
    simp [recursive_in_order_traversal, inList, ihl, ihr]
  | Empty => simp [recursive_in_order_traversal, inList]

theorem recursive_post_order_traversal_eq (v : List α) (t : BinarySearchTree α) :
    recursive_post_order_traversal v t = v ++ postList t := by
  induction t generalizing v with
  | Node value left right ihl ihr =>
    simp [recursive_post_order_traversal, postList, ihl, ihr]
  | Empty => simp [recursive_post_order_traversal, postList]

theorem pre_order_traversal_eq (value : α) (left right : BinarySearchTree α) :
    pre_order_traversal (Node value left right) =
      some (preList (Node value left right)) := by
  simp [pre_order_traversal, recursive_pre_order_traversal_eq]

theorem in_order_traversal_eq (value : α) (left right : BinarySearchTree α) :
    in_order_traversal (Node value left right) =
      some (inList (Node value left right)) := by
  simp [in_order_traversal, recursive_in_order_traversal_eq]

theorem post_order_traversal_eq (value : α) (left right : BinarySearchTree α) :
    post_order_traversal (Node value left right) =
      some (postList (Node value left right)) := by
  simp [post_order_traversal, recursive_post_order_traversal_eq]

theorem recursive_len_eq (n : Nat) (t : BinarySearchTree α) :
    recursive_len n t = n + size t := by
  induction t generalizing n with
  | Node value left right ihl ihr => simp [recursive_len, size, ihl, ihr]; omega
  | Empty => simp [recursive_len, size]

theorem len_eq_size (t : BinarySearchTree α) : len t = size t := by
  cases t with
  | Node value left right => simp [len, recursive_len_eq]
  | Empty => simp [len, size]

/-! ## Level-by-level description of the tree, for the breadth-first claim -/

/-- Merge two per-level lists of values pointwise: level `d` of the result is
level `d` of the first argument followed by level `d` of the second. -/
def mergeLevels : List (List α) → List (List α) → List (List α)
  | [], ys => ys
  | x :: xs, [] => x :: xs
  | x :: xs, y :: ys => (x ++ y) :: mergeLevels xs ys

/-- `treeLevels t` lists the values of `t` level by level from the root
downward; within each level the values appear left to right, because a
node's entire left subtree contributes to each level before its right
subtree does. -/
def treeLevels : BinarySearchTree α → List (List α)
  | Node value left right => [value] :: mergeLevels (treeLevels left) (treeLevels right)
  | Empty => []

/-- The levels of a whole queue of trees, merged pointwise. -/
def queueLevels (q : List (BinarySearchTree α)) : List (List α) :=
  (q.map treeLevels).foldr mergeLevels []

theorem mergeLevels_nil_right (xs : List (List α)) : mergeLevels xs [] = xs := by
  cases xs <;> rfl

theorem mergeLevels_assoc (a b c : List (List α)) :
    mergeLevels (mergeLevels a b) c = mergeLevels a (mergeLevels b c) := by
  induction a generalizing b c with
  | nil => simp [mergeLevels]
  | cons x xs ih =>
    cases b with
    | nil => simp [mergeLevels]
    | cons y ys =>
      cases c with
      | nil => simp [mergeLevels_nil_right, mergeLevels]
      | cons z zs => simp [mergeLevels, ih]

theorem queueLevels_nil : queueLevels ([] : List (BinarySearchTree α)) = [] := rfl

theorem queueLevels_cons (t : BinarySearchTree α) (q : List (BinarySearchTree α)) :
    queueLevels (t :: q) = mergeLevels (treeLevels t) (queueLevels q) := rfl

theorem queueLevels_append (q1 q2 : List (BinarySearchTree α)) :
    queueLevels (q1 ++ q2) = mergeLevels (queueLevels q1) (queueLevels q2) := by
  induction q1 with
  | nil => simp [queueLevels_nil, mergeLevels]
  | cons t q ih => simp [queueLevels_cons, ih, mergeLevels_assoc]

theorem flatten_mergeLevels_shift :
    (R M : List (List α)) →
      (mergeLevels R M).flatten = R.headD [] ++ (mergeLevels M R.tail).flatten
  | [], M => by simp [mergeLevels, mergeLevels_nil_right]
  | R0 :: Rs, [] => by simp [mergeLevels, mergeLevels_nil_right]
  | R0 :: Rs, M0 :: Ms => by
    have h := flatten_mergeLevels_shift (M0 :: Ms) Rs
    simp [mergeLevels] at h ⊢
    simp [h]
termination_by R M => R.length + M.length
decreasing_by simp; omega

/-- The breadth-first queue loop emits the pointwise-merged levels of the
queue, in top-down order, appended to the accumulator. -/
theorem bfs_go_eq :
    (v : List α) → (q : List (BinarySearchTree α)) →
      bfs_go v q = v ++ (queueLevels q).flatten
  | v, [] => by simp [bfs_go, queueLevels_nil]
  | v, Node value left right :: rest => by
    rw [bfs_go]
    have hrec := bfs_go_eq (v ++ [value])
      ((rest ++ (if isNode left then [left] else [])) ++
        (if isNode right then [right] else []))
    rw [hrec]
    have hl : queueLevels (if isNode left then [left] else []) = treeLevels left := by
      cases left <;> simp [isNode, queueLevels_cons, queueLevels_nil,
        mergeLevels_nil_right, treeLevels]
    have hr : queueLevels (if isNode right then [right] else []) = treeLevels right := by
      cases right <;> simp [isNode, queueLevels_cons, queueLevels_nil,
        mergeLevels_nil_right, treeLevels]
    rw [queueLevels_append, queueLevels_append, hl, hr, mergeLevels_assoc,
      queueLevels_cons, treeLevels]
    rw [flatten_mergeLevels_shift ([value] :: mergeLevels (treeLevels left) (treeLevels right))
      (queueLevels rest)]
    simp
  | v, Empty :: rest => by
    rw [bfs_go]
    rw [bfs_go_eq v rest]
    simp [queueLevels_cons, treeLevels, mergeLevels]
termination_by v q => 2 * (q.map size).sum + q.length
decreasing_by
  · simp only [List.map_append, List.sum_append, List.length_append,
      List.map_cons, List.sum_cons, List.length_cons, size]
    split <;> split <;> simp [size] <;> omega
  · simp [size]

/-! ## Lengths and multisets of the traversal sequences -/

theorem preList_length (t : BinarySearchTree α) : (preList t).length = size t := by
  induction t with
  | Node value left right ihl ihr => simp [preList, size, ihl, ihr]; omega
  | Empty => simp [preList, size]

theorem inList_length (t : BinarySearchTree α) : (inList t).length = size t := by
  induction t with
  | Node value left right ihl ihr => simp [inList, size, ihl, ihr]; omega
  | Empty => simp [inList, size]

theorem postList_length (t : BinarySearchTree α) : (postList t).length = size t := by
  induction t with
  | Node value left right ihl ihr => simp [postList, size, ihl, ihr]; omega
  | Empty => simp [postList, size]

theorem preList_multiset_inList (t : BinarySearchTree α) :
    (↑(preList t) : Multiset α) = ↑(inList t) := by
  induction t with
  | Node value left right ihl ihr =>
    simp only [preList, inList, ← Multiset.cons_coe, ← Multiset.coe_add,
      ← Multiset.singleton_add, ihl, ihr]
    abel
  | Empty => rfl

theorem preList_multiset_postList (t : BinarySearchTree α) :
    (↑(preList t) : Multiset α) = ↑(postList t) := by
  induction t with
  | Node value left right ihl ihr =>
    simp only [preList, postList, ← Multiset.cons_coe, ← Multiset.coe_add,
      ← Multiset.singleton_add, ihl, ihr]
    abel
  | Empty => rfl

theorem mergeLevels_flatten_multiset (A B : List (List α)) :
    (↑((mergeLevels A B).flatten) : Multiset α) = ↑A.flatten + ↑B.flatten := by
  induction A generalizing B with
  | nil => simp [mergeLevels]
  | cons x xs ih =>
    cases B with
    | nil => simp [mergeLevels]
    | cons y ys =>
      simp only [mergeLevels, List.flatten_cons, ← Multiset.coe_add, ih]
      abel

theorem treeLevels_flatten_multiset (t : BinarySearchTree α) :
    (↑((treeLevels t).flatten) : Multiset α) = ↑(preList t) := by
  induction t with
  | Node value left right ihl ihr =>
    simp only [treeLevels, preList, List.flatten_cons,
      mergeLevels_flatten_multiset, ← Multiset.cons_coe, ← Multiset.coe_add,
      ← Multiset.singleton_add, ihl, ihr]
    simp
  | Empty => rfl

theorem treeLevels_flatten_length (t : BinarySearchTree α) :
    ((treeLevels t).flatten).length = size t := by
  have h := congrArg Multiset.card (treeLevels_flatten_multiset t)
  simpa [preList_length] using h

/-- `breadth_first_traversal` computed without the queue: it returns the
concatenation of the per-depth level lists. -/
theorem breadth_first_traversal_eq_levels (t : BinarySearchTree α) :
    breadth_first_traversal t = some ((treeLevels t).flatten) := by
  simp [breadth_first_traversal, bfs_go_eq, queueLevels_cons, queueLevels_nil,
    mergeLevels_nil_right]

/-! ## Claim theorems about the traversal operations -/

/-- C2 (amended): `pre_order_traversal`, `in_order_traversal` and
`post_order_traversal` return `none` if and only if the tree is `Empty`,
and on every non-empty tree they return `some` of a sequence; but
`breadth_first_traversal` returns `some` on every tree, including `Empty`
(the original claim wrongly included it in the `none`-iff-`Empty` rule). -/
theorem traversal_none_iff_empty (t : BinarySearchTree α) :
    (pre_order_traversal t = none ↔ t = Empty) ∧
    (in_order_traversal t = none ↔ t = Empty) ∧
    (post_order_traversal t = none ↔ t = Empty) ∧
    (breadth_first_traversal t).isSome = true := by
  cases t <;>
    simp [pre_order_traversal, in_order_traversal, post_order_traversal,
      breadth_first_traversal]

/-- C2 (counterexample to the claim as stated): on the `Empty` tree, where
the claim requires `breadth_first_traversal` to return `None`, the code
returns `Some` of the empty sequence. -/
theorem breadth_first_empty_counterexample :
    breadth_first_traversal (Empty : BinarySearchTree Int) = some [] :=
  (breadth_first_traversal_eq_levels Empty).trans rfl

/-- C6: every non-empty tree's four traversals each return `some` sequence
of exactly `len` elements, and the four sequences are equal as multisets
(they contain the same elements, only the order differs). -/
theorem traversal_completeness (t : BinarySearchTree α) (h : t ≠ Empty) :
    pre_order_traversal t = some (preList t) ∧
    in_order_traversal t = some (inList t) ∧
    post_order_traversal t = some (postList t) ∧
    breadth_first_traversal t = some ((treeLevels t).flatten) ∧
    (preList t).length = len t ∧
    (inList t).length = len t ∧
    (postList t).length = len t ∧
    ((treeLevels t).flatten).length = len t ∧
    (↑(preList t) : Multiset α) = ↑(inList t) ∧
    (↑(preList t) : Multiset α) = ↑(postList t) ∧
    (↑(preList t) : Multiset α) = ↑((treeLevels t).flatten) := by
  cases t with
  | Empty => exact absurd rfl h
  | Node value left right =>
    refine ⟨pre_order_traversal_eq _ _ _, in_order_traversal_eq _ _ _,
      post_order_traversal_eq _ _ _, ?_, ?_, ?_, ?_, ?_,
      preList_multiset_inList _, preList_multiset_postList _,
      (treeLevels_flatten_multiset _).symm⟩
    · exact breadth_first_traversal_eq_levels _
    · rw [preList_length, len_eq_size]
    · rw [inList_length, len_eq_size]
    · rw [postList_length, len_eq_size]
    · rw [treeLevels_flatten_length, len_eq_size]

/-- C6 (witness): the non-empty tree `Node 5 (Node 3 Empty Empty) Empty`
over `Int` has all four traversals defined, of length `len = 2`, with equal
multisets of elements. -/
theorem traversal_completeness_witness :
    pre_order_traversal (Node 5 (Node 3 Empty Empty) Empty : BinarySearchTree Int) =
      some [5, 3] ∧
    in_order_traversal (Node 5 (Node 3 Empty Empty) Empty : BinarySearchTree Int) =
      some [3, 5] ∧
    post_order_traversal (Node 5 (Node 3 Empty Empty) Empty : BinarySearchTree Int) =
      some [3, 5] ∧
    breadth_first_traversal (Node 5 (Node 3 Empty Empty) Empty : BinarySearchTree Int) =
      some [5, 3] ∧
    ([5, 3] : List Int).length =
      len (Node 5 (Node 3 Empty Empty) Empty : BinarySearchTree Int) ∧
    ([3, 5] : List Int).length =
      len (Node 5 (Node 3 Empty Empty) Empty : BinarySearchTree Int) ∧
    ([3, 5] : List Int).length =
      len (Node 5 (Node 3 Empty Empty) Empty : BinarySearchTree Int) ∧
    ([5, 3] : List Int).length =
      len (Node 5 (Node 3 Empty Empty) Empty : BinarySearchTree Int) ∧
    (↑([5, 3] : List Int) : Multiset Int) = ↑([3, 5] : List Int) ∧
    (↑([5, 3] : List Int) : Multiset Int) = ↑([3, 5] : List Int) ∧
    (↑([5, 3] : List Int) : Multiset Int) = ↑([5, 3] : List Int) :=
  traversal_completeness (Node 5 (Node 3 Empty Empty) Empty) (by decide)

/-- C7: `breadth_first_traversal` visits the nodes level by level from the
root downward and left-to-right within each level: on every tree it returns
`some` of the concatenation of the per-depth value lists `treeLevels`,
where level `d + 1` lists the left subtree's values at depth `d` before the
right subtree's. -/
theorem breadth_first_level_order (t : BinarySearchTree α) :
    breadth_first_traversal t = some ((treeLevels t).flatten) :=
  breadth_first_traversal_eq_levels t

/-- C8: inserting `60, 12, 90, 4, 1, 100, 37, 84` in that order into an
empty tree yields pre-order `60, 12, 4, 1, 37, 90, 84, 100`, in-order
`1, 4, 12, 37, 60, 84, 90, 100`, post-order `1, 4, 37, 12, 84, 100, 90, 60`
and breadth-first `60, 12, 90, 4, 37, 84, 100, 1`. -/
theorem concrete_scenario :
    pre_order_traversal (build totalCmp ([60, 12, 90, 4, 1, 100, 37, 84] : List Int)) =
      some [60, 12, 4, 1, 37, 90, 84, 100] ∧
    in_order_traversal (build totalCmp ([60, 12, 90, 4, 1, 100, 37, 84] : List Int)) =
      some [1, 4, 12, 37, 60, 84, 90, 100] ∧
    post_order_traversal (build totalCmp ([60, 12, 90, 4, 1, 100, 37, 84] : List Int)) =
      some [1, 4, 37, 12, 84, 100, 90, 60] ∧
    breadth_first_traversal (build totalCmp ([60, 12, 90, 4, 1, 100, 37, 84] : List Int)) =
      some [60, 12, 90, 4, 37, 84, 100, 1] := by
  refine ⟨by decide, by decide, by decide, ?_⟩
  rw [breadth_first_traversal_eq_levels]
  decide

/-- C10: `breadth_first_traversal` applied to the `Empty` tree produced by
`new()` returns `some` of the empty sequence, and on every tree it returns
`some` (never `none`). -/
theorem breadth_first_total (t : BinarySearchTree α) :
    breadth_first_traversal (new : BinarySearchTree α) = some [] ∧
    (breadth_first_traversal t).isSome = true :=
  ⟨(breadth_first_traversal_eq_levels new).trans rfl, rfl⟩

/-! ## The binary-search-tree ordering invariant -/

/-- `All p t`: the predicate `p` holds of every value stored in `t`. -/
def All (p : α → Prop) : BinarySearchTree α → Prop
  | Node value left right => p value ∧ All p left ∧ All p right
  | Empty => True

/-- `IsBST cmp t`: at every `Node`, every value in the left subtree compares
`Less` with the node's value and every value in the right subtree compares
`Greater` with it, under the comparison `cmp`. -/
def IsBST (cmp : α → α → Option Ordering) : BinarySearchTree α → Prop
  | Node value left right =>
    All (fun e => cmp e value = some Ordering.lt) left ∧
    All (fun e => cmp e value = some Ordering.gt) right ∧
    IsBST cmp left ∧ IsBST cmp right
  | Empty => True

def decAll {p : α → Prop} [DecidablePred p] :
    (t : BinarySearchTree α) → Decidable (All p t)
  | Node value left right =>
    haveI : Decidable (All p left) := decAll left
    haveI : Decidable (All p right) := decAll right
    inferInstanceAs (Decidable (p value ∧ All p left ∧ All p right))
  | Empty => isTrue trivial

instance {p : α → Prop} [DecidablePred p] (t : BinarySearchTree α) :
    Decidable (All p t) := decAll t

def decIsBST (cmp : α → α → Option Ordering) :
    (t : BinarySearchTree α) → Decidable (IsBST cmp t)
  | Node value left right =>
    haveI : Decidable (IsBST cmp left) := decIsBST cmp left
    haveI : Decidable (IsBST cmp right) := decIsBST cmp right
    inferInstanceAs (Decidable (All _ left ∧ All _ right ∧ IsBST cmp left ∧ IsBST cmp right))
  | Empty => isTrue trivial

instance (cmp : α → α → Option Ordering) (t : BinarySearchTree α) :
    Decidable (IsBST cmp t) := decIsBST cmp t

theorem All_mem {p : α → Prop} {t : BinarySearchTree α} {a : α}
    (hall : All p t) (hmem : a ∈ inList t) : p a := by
  induction t with
  | Node value left right ihl ihr =>
    obtain ⟨hv, hl, hr⟩ := hall
    simp only [inList, List.mem_append, List.mem_cons] at hmem
    rcases hmem with h | h | h
    · exact ihl hl h
    · exact h ▸ hv
    · exact ihr hr h
  | Empty => simp [inList] at hmem

theorem All_insert {cmp : α → α → Option Ordering} {p : α → Prop}
    {t : BinarySearchTree α} {x : α} (hall : All p t) (hx : p x) :
    All p (insert cmp t x) := by
  induction t with
  | Node value left right ihl ihr =>
    obtain ⟨hv, hl, hr⟩ := hall
    rw [insert]
    rcases hc : cmp x value with _ | o
    · exact ⟨hv, hl, hr⟩
    · cases o
      · exact ⟨hv, ihl hl, hr⟩
      · exact ⟨hv, hl, hr⟩
      · exact ⟨hv, hl, ihr hr⟩
  | Empty => exact ⟨hx, trivial, trivial⟩

theorem insert_IsBST {cmp : α → α → Option Ordering} {t : BinarySearchTree α}
    (h : IsBST cmp t) (x : α) : IsBST cmp (insert cmp t x) := by
  induction t with
  | Node value left right ihl ihr =>
    obtain ⟨hl, hr, hbl, hbr⟩ := h
    rw [insert]
    rcases hc : cmp x value with _ | o
    · exact ⟨hl, hr, hbl, hbr⟩
    · cases o
      · exact ⟨All_insert hl hc, hr, ihl hbl, hbr⟩
      · exact ⟨hl, hr, hbl, hbr⟩
      · exact ⟨hl, All_insert hr hc, hbl, ihr hbr⟩
  | Empty => exact ⟨trivial, trivial, trivial, trivial⟩

theorem foldl_insert_IsBST {cmp : α → α → Option Ordering}
    {t : BinarySearchTree α} (h : IsBST cmp t) (xs : List α) :
    IsBST cmp (xs.foldl (insert cmp) t) := by
  induction xs generalizing t with
  | nil => exact h
  | cons x xs ih => exact ih (insert_IsBST h x)

theorem build_IsBST (cmp : α → α → Option Ordering) (xs : List α) :
    IsBST cmp (build cmp xs) := by
  have h : IsBST cmp (Empty : BinarySearchTree α) := trivial
  exact foldl_insert_IsBST h xs

/-- In-order contents of a tree satisfying the ordering invariant are
pairwise strictly increasing under `cmp`, provided `cmp` satisfies the
`PartialOrd` duality and transitivity laws. -/
theorem IsBST_inList_pairwise {cmp : α → α → Option Ordering}
    (hdual : ∀ a b, cmp a b = some Ordering.gt ↔ cmp b a = some Ordering.lt)
    (htrans : ∀ a b c, cmp a b = some Ordering.lt →
      cmp b c = some Ordering.lt → cmp a c = some Ordering.lt)
    {t : BinarySearchTree α} (h : IsBST cmp t) :
    (inList t).Pairwise (fun a b => cmp a b = some Ordering.lt) := by
  induction t with
  | Node value left right ihl ihr =>
    obtain ⟨hl, hr, hbl, hbr⟩ := h
    rw [inList, List.pairwise_append]
    have hmemr : ∀ b ∈ inList right, cmp value b = some Ordering.lt := fun b hb =>
      (hdual b value).mp
        (All_mem (p := fun e => cmp e value = some Ordering.gt) hr hb)
    have hmeml : ∀ a ∈ inList left, cmp a value = some Ordering.lt := fun a ha =>
      All_mem (p := fun e => cmp e value = some Ordering.lt) hl ha
    refine ⟨ihl hbl, ?_, ?_⟩
    · rw [List.pairwise_cons]
      exact ⟨hmemr, ihr hbr⟩
    · intro a ha b hb
      rcases List.mem_cons.mp hb with rfl | hb
      · exact hmeml a ha
      · exact htrans a value b (hmeml a ha) (hmemr b hb)
  | Empty => simp [inList]

/-- C1: for every tree obtained by starting from `new()` and performing any
sequence of `insert` calls, whenever `in_order_traversal` yields a `some`
sequence, that sequence is sorted in non-decreasing order under the element
type's ordering (each element compares `Less` than or equal to every later
one), provided the comparison satisfies the `PartialOrd` duality and
transitivity laws. -/
theorem in_order_traversal_sorted (cmp : α → α → Option Ordering)
    (hdual : ∀ a b, cmp a b = some Ordering.gt ↔ cmp b a = some Ordering.lt)
    (htrans : ∀ a b c, cmp a b = some Ordering.lt →
      cmp b c = some Ordering.lt → cmp a c = some Ordering.lt)
    (xs : List α) (l : List α)
    (h : in_order_traversal (build cmp xs) = some l) :
    l.Pairwise
      (fun a b => cmp a b = some Ordering.lt ∨ cmp a b = some Ordering.eq) := by
  have hb := build_IsBST cmp xs
  rcases ht : build cmp xs with ⟨value, left, right⟩ | _
  · rw [ht, in_order_traversal_eq] at h
    rw [ht] at hb
    obtain rfl : l = inList (Node value left right) := (Option.some_inj.mp h).symm
    exact (IsBST_inList_pairwise hdual htrans hb).imp fun hab => Or.inl hab
  · rw [ht] at h
    simp [in_order_traversal] at h

/-- C1 (witness): inserting `2, 0, 3` into an empty tree over `Fin 4` gives
the in-order sequence `0, 2, 3`, which is pairwise non-decreasing. -/
theorem in_order_traversal_sorted_witness :
    List.Pairwise
      (fun a b => totalCmp a b = some Ordering.lt ∨ totalCmp a b = some Ordering.eq)
      ([0, 2, 3] : List (Fin 4)) :=
  in_order_traversal_sorted totalCmp (by decide) (by decide) [2, 0, 3] [0, 2, 3]
    (by decide)

/-- C3: every tree reachable from `new()` by a sequence of `insert` calls
satisfies the ordering invariant `IsBST` (left-subtree values compare
`Less`, right-subtree values compare `Greater`, at every node), and
`insert` preserves `IsBST`; the remaining operations (`len`, `is_empty`,
the four traversals) take the tree immutably and return no tree, so they
preserve every tree invariant trivially. -/
theorem bst_invariant (cmp : α → α → Option Ordering) (xs : List α) (x : α)
    (t : BinarySearchTree α) (h : IsBST cmp t) :
    IsBST cmp (build cmp xs) ∧ IsBST cmp (insert cmp t x) :=
  ⟨build_IsBST cmp xs, insert_IsBST h x⟩

/-- C3 (witness): the invariant holds for the tree built from `2, 0, 3`
over `Fin 4`, and is preserved when `0` is inserted into the binary search
tree `Node 2 (Node 1 _ _) (Node 3 _ _)`. -/
theorem bst_invariant_witness :
    IsBST (totalCmp (α := Fin 4)) (build totalCmp [2, 0, 3]) ∧
    IsBST totalCmp
      (insert totalCmp
        (Node 2 (Node 1 Empty Empty) (Node 3 Empty Empty) : BinarySearchTree (Fin 4)) 0) :=
  bst_invariant totalCmp [2, 0, 3] 0
    (Node 2 (Node 1 Empty Empty) (Node 3 Empty Empty)) (by decide)

/-! ## Inserting a duplicate or incomparable value -/

theorem insert_insert_self {cmp : α → α → Option Ordering} {x : α}
    (hxx1 : cmp x x ≠ some Ordering.lt) (hxx2 : cmp x x ≠ some Ordering.gt)
    (t : BinarySearchTree α) :
    insert cmp (insert cmp t x) x = insert cmp t x := by
  induction t with
  | Node value left right ihl ihr =>
    rcases hc : cmp x value with _ | o
    · simp [insert, hc]
    · cases o
      · simp [insert, hc, ihl]
      · simp [insert, hc]
      · simp [insert, hc, ihr]
  | Empty =>
    rcases hc : cmp x x with _ | o
    · simp [insert, hc]
    · cases o
      · exact absurd hc hxx1
      · simp [insert, hc]
      · exact absurd hc hxx2

/-- C5: inserting a value whose comparison with the stored value it meets
yields neither `Less` nor `Greater` leaves the tree unchanged, and (when
the value does not compare `Less` or `Greater` with itself, as Rust's
`PartialOrd` laws require) inserting the same value twice leaves the tree,
and hence every traversal's output sequence, unchanged between the two
insertions. -/
theorem insert_duplicate_noop (cmp : α → α → Option Ordering) (x v : α)
    (l r t : BinarySearchTree α)
    (hxv1 : cmp x v ≠ some Ordering.lt) (hxv2 : cmp x v ≠ some Ordering.gt)
    (hxx1 : cmp x x ≠ some Ordering.lt) (hxx2 : cmp x x ≠ some Ordering.gt) :
    insert cmp (Node v l r) x = Node v l r ∧
    insert cmp (insert cmp t x) x = insert cmp t x ∧
    pre_order_traversal (insert cmp (insert cmp t x) x) =
      pre_order_traversal (insert cmp t x) ∧
    in_order_traversal (insert cmp (insert cmp t x) x) =
      in_order_traversal (insert cmp t x) ∧
    post_order_traversal (insert cmp (insert cmp t x) x) =
      post_order_traversal (insert cmp t x) ∧
    breadth_first_traversal (insert cmp (insert cmp t x) x) =
      breadth_first_traversal (insert cmp t x) := by
  have hidem := insert_insert_self hxx1 hxx2 t
  refine ⟨?_, hidem, by rw [hidem], by rw [hidem], by rw [hidem], by rw [hidem]⟩
  rcases hc : cmp x v with _ | o
  · simp [insert, hc]
  · cases o
    · exact absurd hc hxv1
    · simp [insert, hc]
    · exact absurd hc hxv2

/-- C5 (witness): inserting `5` twice into `Node 7 Empty Empty` over `Int`
changes nothing after the first insertion, and inserting `5` into a node
that already stores `5` is a no-op. -/
theorem insert_duplicate_noop_witness :
    insert totalCmp (Node 5 Empty Empty : BinarySearchTree Int) 5 =
      Node 5 Empty Empty ∧
    insert totalCmp (insert totalCmp (Node 7 Empty Empty : BinarySearchTree Int) 5) 5 =
      insert totalCmp (Node 7 Empty Empty) 5 ∧
    pre_order_traversal
        (insert totalCmp (insert totalCmp (Node 7 Empty Empty : BinarySearchTree Int) 5) 5) =
      pre_order_traversal (insert totalCmp (Node 7 Empty Empty) 5) ∧
    in_order_traversal
        (insert totalCmp (insert totalCmp (Node 7 Empty Empty : BinarySearchTree Int) 5) 5) =
      in_order_traversal (insert totalCmp (Node 7 Empty Empty) 5) ∧
    post_order_traversal
        (insert totalCmp (insert totalCmp (Node 7 Empty Empty : BinarySearchTree Int) 5) 5) =
      post_order_traversal (insert totalCmp (Node 7 Empty Empty) 5) ∧
    breadth_first_traversal
        (insert totalCmp (insert totalCmp (Node 7 Empty Empty : BinarySearchTree Int) 5) 5) =
      breadth_first_traversal (insert totalCmp (Node 7 Empty Empty) 5) :=
  insert_duplicate_noop totalCmp 5 5 Empty Empty (Node 7 Empty Empty)
    (by decide) (by decide) (by decide) (by decide)

/-! ## Insertion only grows the tree -/

/-- `Preserves t t'` says `t'` keeps every `Node` of `t` at its position
with the same stored value (children may change from `Empty` to `Node`, but
never back, and no stored value is mutated). -/
def Preserves : BinarySearchTree α → BinarySearchTree α → Prop
  | Empty, _ => True
  | Node value left right, Node value2 left2 right2 =>
    value = value2 ∧ Preserves left left2 ∧ Preserves right right2
  | Node _ _ _, Empty => False

theorem Preserves_refl (t : BinarySearchTree α) : Preserves t t := by
  induction t with
  | Node value left right ihl ihr => exact ⟨rfl, ihl, ihr⟩
  | Empty => trivial

theorem insert_Preserves (cmp : α → α → Option Ordering)
    (t : BinarySearchTree α) (x : α) : Preserves t (insert cmp t x) := by
  induction t with
  | Node value left right ihl ihr =>
    rcases hc : cmp x value with _ | o
    · simpa [insert, hc] using Preserves_refl (Node value left right)
    · cases o
      · exact (by simp [insert, hc] :
          insert cmp (Node value left right) x =
            Node value (insert cmp left x) right) ▸
          ⟨rfl, ihl, Preserves_refl right⟩
      · simpa [insert, hc] using Preserves_refl (Node value left right)
      · exact (by simp [insert, hc] :
          insert cmp (Node value left right) x =
            Node value left (insert cmp right x)) ▸
          ⟨rfl, Preserves_refl left, ihr⟩
  | Empty => trivial

theorem size_insert_or (cmp : α → α → Option Ordering)
    (t : BinarySearchTree α) (x : α) :
    size (insert cmp t x) = size t ∨ size (insert cmp t x) = size t + 1 := by
  induction t with
  | Node value left right ihl ihr =>
    rcases hc : cmp x value with _ | o
    · simp [insert, hc]
    · cases o
      · rcases ihl with h | h <;> simp [insert, hc, size, h] <;> omega
      · simp [insert, hc]
      · rcases ihr with h | h <;> simp [insert, hc, size, h] <;> omega
  | Empty => simp [insert, size]

theorem inList_insert_multiset (cmp : α → α → Option Ordering)
    (t : BinarySearchTree α) (x : α) :
    (↑(inList (insert cmp t x)) : Multiset α) = ↑(inList t) ∨
    (↑(inList (insert cmp t x)) : Multiset α) = x ::ₘ ↑(inList t) := by
  induction t with
  | Node value left right ihl ihr =>
    rcases hc : cmp x value with _ | o
    · left; simp [insert, hc]
    · cases o
      · rcases ihl with h | h
        · left; simp [insert, hc, inList, ← Multiset.coe_add, ← Multiset.cons_coe, h]
        · right
          simp only [insert, hc, inList, ← Multiset.coe_add, ← Multiset.cons_coe,
            ← Multiset.singleton_add, h]
          abel
      · left; simp [insert, hc]
      · rcases ihr with h | h
        · left; simp [insert, hc, inList, ← Multiset.coe_add, ← Multiset.cons_coe, h]
        · right
          simp only [insert, hc, inList, ← Multiset.coe_add, ← Multiset.cons_coe,
            ← Multiset.singleton_add, h]
          abel
  | Empty =>
    right
    simp [insert, inList]

/-- C9: a single `insert` never removes or changes a stored element: every
`Node` position keeps its value (`Preserves`, so no `Node` ever reverts to
`Empty` and no stored value is mutated), `len` stays the same or grows by
exactly one, and the multiset of stored elements before is contained in the
multiset after. -/
theorem insert_only_grows (cmp : α → α → Option Ordering)
    (t : BinarySearchTree α) (x : α) :
    Preserves t (insert cmp t x) ∧
    (len (insert cmp t x) = len t ∨ len (insert cmp t x) = len t + 1) ∧
    (↑(inList t) : Multiset α) ≤ ↑(inList (insert cmp t x)) := by
  refine ⟨insert_Preserves cmp t x, ?_, ?_⟩
  · rw [len_eq_size, len_eq_size]
    exact size_insert_or cmp t x
  · rcases inList_insert_multiset cmp t x with h | h
    · exact le_of_eq h.symm
    · rw [h]
      exact Multiset.le_cons_self _ _

/-! ## Size after inserting distinct comparable values -/

theorem mem_inList_insert {cmp : α → α → Option Ordering}
    {t : BinarySearchTree α} {x a : α}
    (h : a ∈ inList (insert cmp t x)) : a = x ∨ a ∈ inList t := by
  induction t with
  | Node value left right ihl ihr =>
    rcases hc : cmp x value with _ | o
    · simp only [insert, hc] at h
      exact Or.inr h
    · cases o
      · simp only [insert, hc, inList, List.mem_append, List.mem_cons] at h
        rcases h with h | h | h
        · rcases ihl h with h | h
          · exact Or.inl h
          · exact Or.inr (by simp [inList, h])
        · exact Or.inr (by simp [inList, h])
        · exact Or.inr (by simp [inList, h])
      · simp only [insert, hc] at h
        exact Or.inr h
      · simp only [insert, hc, inList, List.mem_append, List.mem_cons] at h
        rcases h with h | h | h
        · exact Or.inr (by simp [inList, h])
        · exact Or.inr (by simp [inList, h])
        · rcases ihr h with h | h
          · exact Or.inl h
          · exact Or.inr (by simp [inList, h])
  | Empty =>
    simp only [insert, inList, List.mem_append, List.mem_cons] at h
    rcases h with h | h | h
    · simp [inList] at h
    · exact Or.inl h
    · simp [inList] at h

theorem size_insert_of_comparable {cmp : α → α → Option Ordering}
    {t : BinarySearchTree α} {x : α}
    (h : ∀ v ∈ inList t, cmp x v = some Ordering.lt ∨ cmp x v = some Ordering.gt) :
    size (insert cmp t x) = size t + 1 := by
  induction t with
  | Node value left right ihl ihr =>
    have hv := h value (by simp [inList])
    rcases hv with hlt | hgt
    · have := ihl fun v hv => h v (by simp [inList, hv])
      simp [insert, hlt, size, this]
      omega
    · have := ihr fun v hv => h v (by simp [inList, hv])
      simp [insert, hgt, size, this]
      omega
  | Empty => simp [insert, size]

theorem size_foldl_insert {cmp : α → α → Option Ordering}
    (hdual : ∀ a b, cmp a b = some Ordering.gt ↔ cmp b a = some Ordering.lt)
    (xs : List α) :
    ∀ t : BinarySearchTree α,
      xs.Pairwise
        (fun a b => cmp a b = some Ordering.lt ∨ cmp a b = some Ordering.gt) →
      (∀ x ∈ xs, ∀ v ∈ inList t,
        cmp x v = some Ordering.lt ∨ cmp x v = some Ordering.gt) →
      size (xs.foldl (insert cmp) t) = size t + xs.length := by
  induction xs with
  | nil => intro t _ _; simp
  | cons x xs ih =>
    intro t hpair hcomp
    have hx : ∀ v ∈ inList t, cmp x v = some Ordering.lt ∨ cmp x v = some Ordering.gt :=
      hcomp x (by simp)
    have hpair' := (List.pairwise_cons.mp hpair).2
    have hhead := (List.pairwise_cons.mp hpair).1
    have hcomp' : ∀ y ∈ xs, ∀ v ∈ inList (insert cmp t x),
        cmp y v = some Ordering.lt ∨ cmp y v = some Ordering.gt := by
      intro y hy v hv
      rcases mem_inList_insert hv with rfl | hv
      · rcases hhead y hy with hlt | hgt
        · exact Or.inr ((hdual y v).mpr hlt)
        · exact Or.inl ((hdual v y).mp hgt)
      · exact hcomp y (by simp [hy]) v hv
    rw [List.foldl_cons, ih (insert cmp t x) hpair' hcomp',
      size_insert_of_comparable hx]
    simp [Nat.add_assoc, Nat.add_comm 1 xs.length]

theorem insert_eq_of_eq_mem {cmp : α → α → Option Ordering}
    (hcong : ∀ a b c, cmp a b = some Ordering.eq → cmp a c = cmp b c)
    {t : BinarySearchTree α} {x v : α}
    (hbst : IsBST cmp t) (hv : v ∈ inList t)
    (heq : cmp x v = some Ordering.eq) :
    insert cmp t x = t := by
  induction t with
  | Node value left right ihl ihr =>
    obtain ⟨hal, har, hbl, hbr⟩ := hbst
    simp only [inList, List.mem_append, List.mem_cons] at hv
    rcases hv with hv | rfl | hv
    · have hlt : cmp x value = some Ordering.lt := by
        rw [hcong x v value heq]
        exact All_mem (p := fun e => cmp e value = some Ordering.lt) hal hv
      simp [insert, hlt, ihl hbl hv]
    · simp [insert, heq]
    · have hgt : cmp x value = some Ordering.gt := by
        rw [hcong x v value heq]
        exact All_mem (p := fun e => cmp e value = some Ordering.gt) har hv
      simp [insert, hgt, ihr hbr hv]
  | Empty => simp [inList] at hv

/-- C4: after inserting a sequence of pairwise-distinct, mutually comparable
values (each pair compares `Less` or `Greater`) into an empty tree, `len`
equals the length of the sequence; and inserting a value that compares
equal to a value already stored leaves the tree, hence `len`, unchanged.
The comparison is assumed to satisfy the `PartialOrd` duality and
equals-substitutability laws. -/
theorem len_inserts_distinct (cmp : α → α → Option Ordering) (xs : List α)
    (x v : α)
    (hdual : ∀ a b, cmp a b = some Ordering.gt ↔ cmp b a = some Ordering.lt)
    (hcong : ∀ a b c, cmp a b = some Ordering.eq → cmp a c = cmp b c)
    (hpair : xs.Pairwise
      (fun a b => cmp a b = some Ordering.lt ∨ cmp a b = some Ordering.gt))
    (hv : v ∈ inList (build cmp xs))
    (heq : cmp x v = some Ordering.eq) :
    len (build cmp xs) = xs.length ∧
    len (insert cmp (build cmp xs) x) = len (build cmp xs) := by
  constructor
  · rw [len_eq_size]
    have h := size_foldl_insert hdual xs Empty hpair (by simp [inList])
    simpa [build, new, size] using h
  · rw [insert_eq_of_eq_mem hcong (build_IsBST cmp xs) hv heq]

/-- C4 (witness): building from `2, 0, 3` over `Fin 4` gives `len = 3`, and
re-inserting `0` (equal to the stored `0`) leaves `len` unchanged. -/
theorem len_inserts_distinct_witness :
    len (build (totalCmp (α := Fin 4)) [2, 0, 3]) = ([2, 0, 3] : List (Fin 4)).length ∧
    len (insert totalCmp (build (totalCmp (α := Fin 4)) [2, 0, 3]) 0) =
      len (build (totalCmp (α := Fin 4)) [2, 0, 3]) :=
  len_inserts_distinct totalCmp [2, 0, 3] 0 0 (by decide) (by decide) (by decide)
    (by decide) (by decide)

end BinarySearchTree
